import Mathlib

/-!
Verification of the `evoground` evolution-strategy core
(`src/evoground_core/src/evolution_strategies/mod.rs`).

Shallow embedding conventions:

* An `f64` individual/score is modelled by `F64`: either `nan` or an exact
  rational value (`val q`).  Arithmetic on `val` values is exact-rational;
  any operation touching `nan` produces `nan`.  Comparisons involving `nan`
  are `false`, and `F64.pcmp` (the model of `f64::partial_cmp`) returns
  `none` exactly when one side is `nan`, mirroring IEEE-754 ordering.
* `rand::random::<f64>()` is modelled by an explicit stream `g : ℕ → ℚ` of
  draws together with a cursor `i : ℕ`; each call reads `g i` and advances
  the cursor.  (The real generator produces values in `[0,1)` and never
  `nan`, hence the stream carries plain rationals.)
* `Vec<f64>` is `List F64`; `Vec::truncate` is `List.take`;
  `slice::sort_by` (a stable sort driven by a comparator) is
  `List.mergeSort` with the "comparator is not `Greater`" predicate.
* Fallible operations (`Option::unwrap` on `Vec::last`) return `Option`;
  `none` marks the panic case.
* The Rust `EvolutionStrategy<T, U>` is generic in its mutator and
  selector; the repository only instantiates it with `SimpleMutator` and
  `SimpleSelector`, and the embedding is taken at that instance.
-/

inductive F64 where
  | nan : F64
  | val : ℚ → F64
deriving DecidableEq, Repr

namespace F64

def isNan : F64 → Bool
  | nan => true
  | val _ => false

def add : F64 → F64 → F64
  | val a, val b => val (a + b)
  | _, _ => nan

def sub : F64 → F64 → F64
  | val a, val b => val (a - b)
  | _, _ => nan

def mul : F64 → F64 → F64
  | val a, val b => val (a * b)
  | _, _ => nan

instance : Add F64 := ⟨add⟩
instance : Sub F64 := ⟨sub⟩
instance : Mul F64 := ⟨mul⟩

/-- IEEE `<` on `f64`: any comparison with `nan` is `false`. -/
def lt : F64 → F64 → Bool
  | val a, val b => decide (a < b)
  | _, _ => false

/-- IEEE `<=` on `f64`: any comparison with `nan` is `false`. -/
def le : F64 → F64 → Bool
  | val a, val b => decide (a ≤ b)
  | _, _ => false

/-- Model of `f64::partial_cmp`: `none` exactly when one operand is `nan`. -/
def pcmp : F64 → F64 → Option Ordering
  | val a, val b => some (if a < b then .lt else if b < a then .gt else .eq)
  | _, _ => none

end F64

/-- `SimpleMutator` of `mod.rs`: mutation probability and step half-width. -/
structure SimpleMutator where
  mutation_rate : F64
  mutation_size : F64

/-- `SimpleMutator::mutate`.  Rust:
`if rand::random::<f64>() < self.mutation_rate
   { *individual += (rand::random::<f64>() * 2.0 - 1.0) * self.mutation_size }`.
Takes the random stream `g` and cursor `i`; returns the new individual and
the advanced cursor (one draw for the trigger test, one more when it fires). -/
def SimpleMutator.mutate (m : SimpleMutator) (g : ℕ → ℚ) (x : F64) (i : ℕ) :
    F64 × ℕ :=
  if F64.lt (F64.val (g i)) m.mutation_rate then
    (x + (F64.val (g (i + 1)) * F64.val 2 - F64.val 1) * m.mutation_size, i + 2)
  else
    (x, i + 1)

/-- `SimpleSelector` of `mod.rs`: survivor count and objective function. -/
structure SimpleSelector where
  selection_size : ℕ
  objective : F64 → F64

/-- The comparator passed to `sort_by` in `SimpleSelector::select`:
`score_b.partial_cmp(&score_a).unwrap_or(std::cmp::Ordering::Equal)`
(descending by score, `nan` comparisons collapsed to `Equal`). -/
def SimpleSelector.cmp (sel : SimpleSelector) (a b : F64) : Ordering :=
  (F64.pcmp (sel.objective b) (sel.objective a)).getD Ordering.eq

/-- The "may `a` stay before `b`" predicate induced by the comparator: a
stable comparator sort keeps `a` ahead of `b` whenever the comparator does
not answer `Greater`. -/
def SimpleSelector.keeps (sel : SimpleSelector) (a b : F64) : Bool :=
  sel.cmp a b != Ordering.gt

/-- `SimpleSelector::select`: clone the population, stable-sort it by the
comparator, truncate to `selection_size`. -/
def SimpleSelector.select (sel : SimpleSelector) (population : List F64) :
    List F64 :=
  (population.mergeSort sel.keeps).take sel.selection_size

/-- `EvolutionStrategy` of `mod.rs`, at the `SimpleMutator`/`SimpleSelector`
instance used by the repository. -/
structure EvolutionStrategy where
  population : List F64
  mutator : SimpleMutator
  selector : SimpleSelector

/-- The `for individual in &mut offspring { self.mutator.mutate(individual) }`
loop: mutate each list element in order, threading the random cursor. -/
def mutateAll (m : SimpleMutator) (g : ℕ → ℚ) : List F64 → ℕ → List F64 × ℕ
  | [], i => ([], i)
  | x :: xs, i =>
    let p := m.mutate g x i
    let q := mutateAll m g xs p.2
    (p.1 :: q.1, q.2)

/-- One generation of `EvolutionStrategy::run`: clone the population as
offspring, mutate every offspring member, append offspring after the
parents, and replace the population by the selector's choice. -/
def EvolutionStrategy.step (es : EvolutionStrategy) (g : ℕ → ℚ) (i : ℕ) :
    EvolutionStrategy × ℕ :=
  let o := mutateAll es.mutator g es.population i
  ({ es with population := es.selector.select (es.population ++ o.1) }, o.2)

/-- `EvolutionStrategy::run`: iterate `step` for the requested number of
generations, threading the random cursor. -/
def EvolutionStrategy.run (es : EvolutionStrategy) (generations : ℕ)
    (g : ℕ → ℚ) (i : ℕ) : EvolutionStrategy × ℕ :=
  match generations with
  | 0 => (es, i)
  | n + 1 =>
    let s := es.step g i
    s.1.run n g s.2

/-- `EvolutionStrategy::best_individual`:
`self.population.last().unwrap().clone()`; the `unwrap` panic on an empty
population is modelled by `none`. -/
def EvolutionStrategy.best_individual (es : EvolutionStrategy) : Option F64 :=
  es.population.getLast?

/-! ### Concrete instances used to exercise the theorems -/

/-- A selector keeping the single best candidate under the identity objective
(the spec's end-to-end example `selection_size = 1`, `f(x) = x`). -/
def selW : SimpleSelector := SimpleSelector.mk 1 (fun x => x)

/-- A selector with a constant (hence total and non-NaN) objective. -/
def selConst : SimpleSelector := SimpleSelector.mk 1 (fun _ => F64.val 0)

/-- A two-survivor selector with a constant objective (all scores tie). -/
def selConst2 : SimpleSelector := SimpleSelector.mk 2 (fun _ => F64.val 0)

/-- A mutator with `mutation_rate = 0.5`, `mutation_size = 1`. -/
def mutW : SimpleMutator := SimpleMutator.mk (F64.val (1 / 2)) (F64.val 1)

/-- A fixed random stream: every draw is `1/4`. -/
def gW : ℕ → ℚ := fun _ => 1 / 4

/-- A strategy over the singleton population `[0]`. -/
def esW : EvolutionStrategy := EvolutionStrategy.mk [F64.val 0] mutW selW

/-- A strategy whose population is a post-selection population. -/
def esW4 : EvolutionStrategy :=
  EvolutionStrategy.mk (selW.select [F64.val 1, F64.val 5, F64.val 3]) mutW selW

/-- A `(1+1)` strategy with the constant objective. -/
def esW5 : EvolutionStrategy := EvolutionStrategy.mk [F64.val 0] mutW selConst

/-- A strategy with an empty population. -/
def esEmpty : EvolutionStrategy := EvolutionStrategy.mk [] mutW selW

/-! ### Basic facts about the embedded operations -/

theorem F64.isNan_eq_false_iff (x : F64) : x.isNan = false ↔ ∃ q, x = F64.val q := by
  cases x <;> simp [F64.isNan]

theorem F64.le_val (a b : ℚ) : F64.le (F64.val a) (F64.val b) = decide (a ≤ b) := rfl

theorem mutateAll_nil (m : SimpleMutator) (g : ℕ → ℚ) (i : ℕ) :
    mutateAll m g [] i = ([], i) := rfl

theorem mutateAll_cons (m : SimpleMutator) (g : ℕ → ℚ) (x : F64) (xs : List F64) (i : ℕ) :
    mutateAll m g (x :: xs) i =
      ((m.mutate g x i).1 :: (mutateAll m g xs (m.mutate g x i).2).1,
        (mutateAll m g xs (m.mutate g x i).2).2) := rfl

theorem mutateAll_length (m : SimpleMutator) (g : ℕ → ℚ) :
    ∀ (l : List F64) (i : ℕ), (mutateAll m g l i).1.length = l.length := by
  intro l
  induction l with
  | nil => intro i; rfl
  | cons x xs ih => intro i; simp [mutateAll_cons, ih]

theorem mutateAll_getElem (m : SimpleMutator) (g : ℕ → ℚ) :
    ∀ (l : List F64) (i j : ℕ) (x : F64), l[j]? = some x →
      ((mutateAll m g l i).1)[j]? =
        some ((m.mutate g x ((mutateAll m g (l.take j) i).2)).1) := by
  intro l
  induction l with
  | nil => intro i j x h; simp at h
  | cons y ys ih =>
    intro i j x h
    cases j with
    | zero =>
      simp only [List.getElem?_cons_zero, Option.some.injEq] at h
      subst h
      simp [mutateAll_cons, mutateAll_nil]
    | succ j =>
      simp only [List.getElem?_cons_succ] at h
      simpa [mutateAll_cons] using ih (m.mutate g y i).2 j x h

theorem run_zero (es : EvolutionStrategy) (g : ℕ → ℚ) (i : ℕ) :
    es.run 0 g i = (es, i) := rfl

theorem run_succ (es : EvolutionStrategy) (n : ℕ) (g : ℕ → ℚ) (i : ℕ) :
    es.run (n + 1) g i = ((es.step g i).1.run n g (es.step g i).2) := rfl

theorem run_succ_last (g : ℕ → ℚ) :
    ∀ (n : ℕ) (es : EvolutionStrategy) (i : ℕ),
      es.run (n + 1) g i = (((es.run n g i).1).step g (es.run n g i).2) := by
  intro n
  induction n with
  | zero => intro es i; rfl
  | succ n ih =>
    intro es i
    rw [run_succ, ih, run_succ]

theorem step_mutator (es : EvolutionStrategy) (g : ℕ → ℚ) (i : ℕ) :
    ((es.step g i).1).mutator = es.mutator := rfl

theorem step_selector (es : EvolutionStrategy) (g : ℕ → ℚ) (i : ℕ) :
    ((es.step g i).1).selector = es.selector := rfl

theorem step_population (es : EvolutionStrategy) (g : ℕ → ℚ) (i : ℕ) :
    ((es.step g i).1).population =
      es.selector.select (es.population ++ (mutateAll es.mutator g es.population i).1) := rfl

theorem run_mutator (g : ℕ → ℚ) :
    ∀ (n : ℕ) (es : EvolutionStrategy) (i : ℕ),
      ((es.run n g i).1).mutator = es.mutator := by
  intro n
  induction n with
  | zero => intro es i; rfl
  | succ n ih => intro es i; rw [run_succ]; exact ih _ _

theorem run_selector (g : ℕ → ℚ) :
    ∀ (n : ℕ) (es : EvolutionStrategy) (i : ℕ),
      ((es.run n g i).1).selector = es.selector := by
  intro n
  induction n with
  | zero => intro es i; rfl
  | succ n ih => intro es i; rw [run_succ]; exact ih _ _

theorem select_length (sel : SimpleSelector) (l : List F64) :
    (sel.select l).length = min sel.selection_size l.length := by
  simp [SimpleSelector.select]

theorem step_population_length (es : EvolutionStrategy) (g : ℕ → ℚ) (i : ℕ) :
    ((es.step g i).1).population.length =
      min es.selector.selection_size (2 * es.population.length) := by
  rw [step_population, select_length]
  simp [mutateAll_length]
  omega

/-! ### The comparator of `SimpleSelector::select` -/

theorem keeps_val (sel : SimpleSelector) (a b : F64) (qa qb : ℚ)
    (ha : sel.objective a = F64.val qa) (hb : sel.objective b = F64.val qb) :
    sel.keeps a b = decide (qb ≤ qa) := by
  simp only [SimpleSelector.keeps, SimpleSelector.cmp, ha, hb, F64.pcmp, Option.getD_some]
  split_ifs with h1 h2
  · rw [decide_eq_true (le_of_lt h1)]; rfl
  · rw [decide_eq_false (not_le.mpr h2)]; rfl
  · rw [decide_eq_true (not_lt.mp h2)]; rfl

theorem cmp_eq_of_nan (sel : SimpleSelector) (a b : F64)
    (h : (sel.objective a).isNan = true ∨ (sel.objective b).isNan = true) :
    sel.cmp a b = Ordering.eq := by
  cases hA : sel.objective a <;> cases hB : sel.objective b <;>
    simp_all [F64.isNan, F64.pcmp, SimpleSelector.cmp]

theorem keeps_total (sel : SimpleSelector) (a b : F64) :
    (sel.keeps a b || sel.keeps b a) = true := by
  cases hA : sel.objective a with
  | nan =>
    have h := cmp_eq_of_nan sel a b (Or.inl (by simp [hA, F64.isNan]))
    simp only [SimpleSelector.keeps, h]
    rfl
  | val qa =>
    cases hB : sel.objective b with
    | nan =>
      have h := cmp_eq_of_nan sel a b (Or.inr (by simp [hB, F64.isNan]))
      simp only [SimpleSelector.keeps, h]
      rfl
    | val qb =>
      rw [keeps_val sel a b qa qb hA hB, keeps_val sel b a qb qa hB hA]
      by_cases h : qb ≤ qa
      · simp [h]
      · simp [le_of_not_le h]

theorem mergeSort_keeps_attach (sel : SimpleSelector) (l : List F64) :
    (l.attach.mergeSort (fun a b => sel.keeps a.1 b.1)).map Subtype.val
      = l.mergeSort sel.keeps := by
  have h : (l.attach.mergeSort (fun a b => sel.keeps a.1 b.1)).map Subtype.val
      = (l.attach.map Subtype.val).mergeSort sel.keeps :=
    List.map_mergeSort (fun a _ b _ => rfl)
  rw [List.attach_map_subtype_val] at h
  exact h

theorem keeps_trans_attach (sel : SimpleSelector) (l : List F64)
    (h : ∀ x ∈ l, (sel.objective x).isNan = false) :
    ∀ a b c : {x // x ∈ l},
      sel.keeps a.1 b.1 → sel.keeps b.1 c.1 → sel.keeps a.1 c.1 := by
  intro a b c hab hbc
  obtain ⟨qa, ha⟩ := (F64.isNan_eq_false_iff _).mp (h a.1 a.2)
  obtain ⟨qb, hb⟩ := (F64.isNan_eq_false_iff _).mp (h b.1 b.2)
  obtain ⟨qc, hc⟩ := (F64.isNan_eq_false_iff _).mp (h c.1 c.2)
  rw [keeps_val sel a.1 b.1 qa qb ha hb] at hab
  rw [keeps_val sel b.1 c.1 qb qc hb hc] at hbc
  rw [keeps_val sel a.1 c.1 qa qc ha hc]
  simp only [decide_eq_true_eq] at *
  exact le_trans hbc hab

theorem sorted_mergeSort_keeps (sel : SimpleSelector) (l : List F64)
    (h : ∀ x ∈ l, (sel.objective x).isNan = false) :
    (l.mergeSort sel.keeps).Pairwise (fun a b => sel.keeps a b = true) := by
  rw [← mergeSort_keeps_attach]
  have hs : (l.attach.mergeSort (fun a b => sel.keeps a.1 b.1)).Pairwise
      (fun a b => sel.keeps a.1 b.1 = true) :=
    List.sorted_mergeSort (keeps_trans_attach sel l h)
      (fun a b => keeps_total sel a.1 b.1) l.attach
  exact (List.pairwise_map).mpr hs

theorem pair_sublist_mergeSort_keeps (sel : SimpleSelector) (l : List F64) (a b : F64)
    (h : ∀ x ∈ l, (sel.objective x).isNan = false)
    (hab : List.Sublist [a, b] l) (hk : sel.keeps a b = true) :
    List.Sublist [a, b] (l.mergeSort sel.keeps) := by
  have h1 : List.Sublist [a, b] (l.attach.map Subtype.val) := by
    rw [List.attach_map_subtype_val]; exact hab
  obtain ⟨l2, hsub, hmap⟩ := List.sublist_map_iff.mp h1
  match l2, hmap with
  | [a', b'], hmap =>
    simp only [List.map_cons, List.map_nil, List.cons.injEq, and_true] at hmap
    obtain ⟨ha', hb'⟩ := hmap
    subst ha'; subst hb'
    have h2 : List.Sublist [a', b'] (l.attach.mergeSort (fun x y => sel.keeps x.1 y.1)) :=
      List.pair_sublist_mergeSort (keeps_trans_attach sel l h)
        (fun x y => keeps_total sel x.1 y.1) hk hsub
    have h3 := h2.map Subtype.val
    rw [mergeSort_keeps_attach] at h3
    exact h3

theorem pairwise_rel_getLast {R : F64 → F64 → Prop} :
    ∀ (l : List F64) (w : F64), l.Pairwise R → l.getLast? = some w →
      ∀ x ∈ l, x = w ∨ R x w := by
  intro l
  induction l with
  | nil => intro w _ h; simp at h
  | cons y ys ih =>
    intro w hp hl x hx
    cases ys with
    | nil =>
      simp only [List.getLast?_singleton, Option.some.injEq] at hl
      simp only [List.mem_singleton] at hx
      left; rw [hx, hl]
    | cons z zs =>
      rw [List.getLast?_cons_cons] at hl
      rcases List.mem_cons.mp hx with rfl | hx'
      · right
        have hw : w ∈ z :: zs := List.mem_of_mem_getLast? (by rw [hl]; rfl)
        exact (List.pairwise_cons.mp hp).1 w hw
      · exact ih w (List.pairwise_cons.mp hp).2 hl x hx'

theorem ordering_bne_gt_gt : (Ordering.gt != Ordering.gt) = false := rfl

theorem ordering_bne_eq_gt : (Ordering.eq != Ordering.gt) = true := rfl

theorem ordering_bne_lt_gt : (Ordering.lt != Ordering.gt) = true := rfl

/-! ### One-generation behaviour on a singleton population (the 1+1 case) -/

theorem mergeSort_two (le : F64 → F64 → Bool) (a b : F64) :
    [a, b].mergeSort le = if le a b then [a, b] else [b, a] := by
  simp [List.mergeSort, List.splitInTwo, List.splitAt_eq, List.merge]

theorem select_pair_one (sel : SimpleSelector) (hsz : sel.selection_size = 1)
    (x y : F64) :
    sel.select [x, y] = if sel.keeps x y then [x] else [y] := by
  rw [SimpleSelector.select, mergeSort_two, hsz]
  split_ifs <;> rfl

theorem step_singleton (es : EvolutionStrategy) (x : F64) (g : ℕ → ℚ) (i : ℕ)
    (hpop : es.population = [x]) (hsz : es.selector.selection_size = 1) :
    ((es.step g i).1).population =
      if es.selector.keeps x ((es.mutator.mutate g x i).1) then [x]
      else [(es.mutator.mutate g x i).1] := by
  rw [step_population, hpop]
  have hmut : mutateAll es.mutator g [x] i =
      ([(es.mutator.mutate g x i).1], (es.mutator.mutate g x i).2) := rfl
  rw [hmut]
  exact select_pair_one es.selector hsz x ((es.mutator.mutate g x i).1)

theorem run_singleton_mono (m : SimpleMutator) (sel : SimpleSelector) (g : ℕ → ℚ)
    (hsz : sel.selection_size = 1)
    (hf : ∀ y : F64, (sel.objective y).isNan = false) :
    ∀ (n : ℕ) (x : F64) (i : ℕ), ∃ (y : F64) (qx qy : ℚ),
      ((EvolutionStrategy.mk [x] m sel).run n g i).1.population = [y] ∧
      sel.objective x = F64.val qx ∧ sel.objective y = F64.val qy ∧ qx ≤ qy := by
  intro n
  induction n with
  | zero =>
    intro x i
    obtain ⟨qx, hqx⟩ := (F64.isNan_eq_false_iff _).mp (hf x)
    exact ⟨x, qx, qx, rfl, hqx, hqx, le_refl _⟩
  | succ n ih =>
    intro x i
    rw [run_succ]
    have hstep := step_singleton (EvolutionStrategy.mk [x] m sel) x g i rfl hsz
    obtain ⟨qx, hqx⟩ := (F64.isNan_eq_false_iff _).mp (hf x)
    obtain ⟨qm, hqm⟩ := (F64.isNan_eq_false_iff _).mp
      (hf ((m.mutate g x i).1))
    by_cases hk : sel.keeps x ((m.mutate g x i).1) = true
    · rw [if_pos hk] at hstep
      have h1 : ((EvolutionStrategy.mk [x] m sel).step g i).1 =
          EvolutionStrategy.mk
            ((((EvolutionStrategy.mk [x] m sel).step g i).1).population) m sel := rfl
      rw [hstep] at h1
      rw [h1]
      exact ih x _
    · rw [if_neg hk] at hstep
      have hstep' : ((EvolutionStrategy.mk [x] m sel).step g i).1.population =
          [(m.mutate g x i).1] := hstep
      have h1 : ((EvolutionStrategy.mk [x] m sel).step g i).1 =
          EvolutionStrategy.mk
            ((((EvolutionStrategy.mk [x] m sel).step g i).1).population) m sel := rfl
      rw [hstep'] at h1
      rw [h1]
      obtain ⟨y, qm', qy, hy, hqm', hqy, hle⟩ := ih ((m.mutate g x i).1) _
      refine ⟨y, qx, qy, hy, hqx, hqy, ?_⟩
      rw [keeps_val sel x ((m.mutate g x i).1) qx qm hqx hqm] at hk
      simp only [decide_eq_true_eq] at hk
      have hlt : qx < qm := lt_of_not_le hk
      rw [hqm'] at hqm
      have : qm' = qm := by
        exact F64.val.inj hqm
      exact le_trans (le_of_lt (this ▸ hlt)) hle

theorem F64.lt_val (a b : ℚ) : F64.lt (F64.val a) (F64.val b) = decide (a < b) := rfl

theorem selW_select_eval :
    selW.select [F64.val 1, F64.val 5, F64.val 3] = [F64.val 5] := by
  norm_num [SimpleSelector.select, List.mergeSort, List.splitInTwo, List.splitAt_eq,
    List.merge, SimpleSelector.keeps, SimpleSelector.cmp, F64.pcmp, selW,
    ordering_bne_gt_gt, ordering_bne_eq_gt, ordering_bne_lt_gt]

/-! ### The claims -/

/-- Claim C1: `select` returns exactly `min(selection_size, |candidates|)`
elements; an empty candidate sequence yields an empty result (no error); and
when every candidate's objective score is non-NaN, every returned element has
a score at least the score of every candidate value that is not returned. -/
theorem select_contract (sel : SimpleSelector) (cands : List F64) :
    (sel.select cands).length = min sel.selection_size cands.length
  ∧ (cands = [] → sel.select cands = [])
  ∧ ((∀ x ∈ cands, (sel.objective x).isNan = false) →
      ∀ a ∈ sel.select cands, ∀ b ∈ cands, b ∉ sel.select cands →
        F64.le (sel.objective b) (sel.objective a) = true) := by
  refine ⟨select_length sel cands, ?_, ?_⟩
  · intro h; subst h; simp [SimpleSelector.select]
  · intro hnan a ha b hb hnb
    have hsorted := sorted_mergeSort_keeps sel cands hnan
    have hsel : sel.select cands
        = (cands.mergeSort sel.keeps).take sel.selection_size := rfl
    rw [hsel] at ha hnb
    have hb' : b ∈ cands.mergeSort sel.keeps := List.mem_mergeSort.mpr hb
    have hb2 : b ∈ (cands.mergeSort sel.keeps).take sel.selection_size
        ++ (cands.mergeSort sel.keeps).drop sel.selection_size := by
      rw [List.take_append_drop]; exact hb'
    have hbdrop : b ∈ (cands.mergeSort sel.keeps).drop sel.selection_size := by
      rcases List.mem_append.mp hb2 with h | h
      · exact absurd h hnb
      · exact h
    have hpw2 : List.Pairwise (fun a b => sel.keeps a b = true)
        ((cands.mergeSort sel.keeps).take sel.selection_size
          ++ (cands.mergeSort sel.keeps).drop sel.selection_size) := by
      rw [List.take_append_drop]; exact hsorted
    have hpa := (List.pairwise_append.mp hpw2).2.2
    have hk := hpa a ha b hbdrop
    have hamem : a ∈ cands := List.mem_mergeSort.mp (List.mem_of_mem_take ha)
    obtain ⟨qa, hqa⟩ := (F64.isNan_eq_false_iff _).mp (hnan a hamem)
    obtain ⟨qb, hqb⟩ := (F64.isNan_eq_false_iff _).mp (hnan b hb)
    rw [keeps_val sel a b qa qb hqa hqb] at hk
    rw [hqb, hqa, F64.le_val]
    simpa using hk

/-- Witness for C1, at the spec's own end-to-end example
(`selection_size = 1`, objective `f(x) = x`, candidates `[1, 5, 3]`). -/
theorem select_contract_witness :
    (selW.select [F64.val 1, F64.val 5, F64.val 3]).length = min 1 3
  ∧ (∀ a ∈ selW.select [F64.val 1, F64.val 5, F64.val 3],
      ∀ b ∈ [F64.val 1, F64.val 5, F64.val 3],
        b ∉ selW.select [F64.val 1, F64.val 5, F64.val 3] →
          F64.le (selW.objective b) (selW.objective a) = true) :=
  ⟨(select_contract selW [F64.val 1, F64.val 5, F64.val 3]).1,
   (select_contract selW [F64.val 1, F64.val 5, F64.val 3]).2.2 (by decide)⟩

/-- Claim C2: each iteration of `run` clones the population as offspring,
mutates every offspring member via the Mutator (element `j` of the offspring
is the mutator applied to parent `j`, at the random-stream position reached
after mutating the first `j` clones), forms `combined = population ++
offspring` with the unmutated parents first, and replaces the population with
`selector.select combined`. -/
theorem run_generation_structure (es : EvolutionStrategy) (g : ℕ → ℚ) (i : ℕ) :
    (∀ n : ℕ, es.run (n + 1) g i = ((es.step g i).1.run n g (es.step g i).2))
  ∧ es.step g i =
      (EvolutionStrategy.mk
        (es.selector.select
          (es.population ++ (mutateAll es.mutator g es.population i).1))
        es.mutator es.selector,
       (mutateAll es.mutator g es.population i).2)
  ∧ (mutateAll es.mutator g es.population i).1.length = es.population.length
  ∧ (∀ (j : ℕ) (x : F64), es.population[j]? = some x →
      ((mutateAll es.mutator g es.population i).1)[j]? =
        some ((es.mutator.mutate g x
          ((mutateAll es.mutator g (es.population.take j) i).2)).1)) := by
  refine ⟨fun n => run_succ es n g i, rfl,
    mutateAll_length es.mutator g es.population i, ?_⟩
  intro j x h
  exact mutateAll_getElem es.mutator g es.population i j x h

/-- Witness for C2: the single parent `0` of `esW` is mutated into offspring
slot `0` starting at random-stream position `0`. -/
theorem run_generation_structure_witness :
    ((mutateAll esW.mutator gW esW.population 0).1)[0]? =
      some ((esW.mutator.mutate gW (F64.val 0)
        ((mutateAll esW.mutator gW (esW.population.take 0) 0).2)).1) :=
  (run_generation_structure esW gW 0).2.2.2 0 (F64.val 0) rfl

/-- Claim C3: in every generation of every run, the population size after the
generation equals `min(selection_size, 2 * size-before)`; the mutation phase
itself never changes the number of individuals. -/
theorem population_size_invariant (es : EvolutionStrategy) (g : ℕ → ℚ) (i : ℕ) :
    (∀ k : ℕ, ((es.run (k + 1) g i).1).population.length =
      min es.selector.selection_size (2 * ((es.run k g i).1).population.length))
  ∧ (∀ (l : List F64) (j : ℕ), (mutateAll es.mutator g l j).1.length = l.length) := by
  constructor
  · intro k
    rw [run_succ_last g k es i, step_population_length, run_selector]
  · intro l j
    exact mutateAll_length es.mutator g l j

/-- Claim C4: on a non-empty post-selection population, `best_individual`
returns the last element of the population, and — the sort being descending
by score — that element's score is at most the score of every retained
survivor: `best_individual` yields the worst survivor, not the best. -/
theorem best_individual_is_last_and_worst (es : EvolutionStrategy) (cands : List F64)
    (hpop : es.population = es.selector.select cands)
    (hne : es.population ≠ [])
    (hnan : ∀ x ∈ cands, (es.selector.objective x).isNan = false) :
    es.best_individual = es.population.getLast?
  ∧ ∃ w, es.best_individual = some w ∧
      ∀ x ∈ es.population,
        F64.le (es.selector.objective w) (es.selector.objective x) = true := by
  refine ⟨rfl, ?_⟩
  obtain ⟨w, hw⟩ := Option.isSome_iff_exists.mp (List.getLast?_isSome.mpr hne)
  refine ⟨w, hw, ?_⟩
  intro x hx
  have hsorted := sorted_mergeSort_keeps es.selector cands hnan
  have hpw : es.population.Pairwise (fun a b => es.selector.keeps a b = true) := by
    rw [hpop]; exact hsorted.take
  have hrel := pairwise_rel_getLast es.population w hpw hw x hx
  have hsub : ∀ y ∈ es.population, y ∈ cands := by
    intro y hy
    rw [hpop] at hy
    exact List.mem_mergeSort.mp (List.mem_of_mem_take hy)
  have hwmem : w ∈ cands := hsub w (List.mem_of_mem_getLast? hw)
  obtain ⟨qw, hqw⟩ := (F64.isNan_eq_false_iff _).mp (hnan w hwmem)
  obtain ⟨qx, hqx⟩ := (F64.isNan_eq_false_iff _).mp (hnan x (hsub x hx))
  rcases hrel with rfl | hkxw
  · rw [hqw, F64.le_val]
    simp
  · rw [keeps_val es.selector x w qx qw hqx hqw] at hkxw
    rw [hqw, hqx, F64.le_val]
    simpa using hkxw

/-- Witness for C4: selecting the best of `[1, 5, 3]` under `f(x) = x` with
`selection_size = 1` gives the population `[5]`, whose last element is `5`. -/
theorem best_individual_is_last_and_worst_witness :
    esW4.best_individual = esW4.population.getLast?
  ∧ ∃ w, esW4.best_individual = some w ∧
      ∀ x ∈ esW4.population,
        F64.le (esW4.selector.objective w) (esW4.selector.objective x) = true :=
  best_individual_is_last_and_worst esW4 [F64.val 1, F64.val 5, F64.val 3] rfl
    (by
      have h : esW4.population = [F64.val 5] := selW_select_eval
      rw [h]
      simp)
    (by decide)

/-- Claim C5: in the `(1+1)` configuration (singleton population,
`selection_size = 1`, objective never NaN), the score of `best_individual`
after any number of generations is at least the score of the initial value,
and one generation replaces the parent by its offspring exactly on strict
improvement — ties keep the parent. -/
theorem one_plus_one_monotone (es : EvolutionStrategy) (x0 : F64) (g : ℕ → ℚ) (i : ℕ)
    (hpop : es.population = [x0])
    (hsz : es.selector.selection_size = 1)
    (hf : ∀ y : F64, (es.selector.objective y).isNan = false) :
    (∀ n : ℕ, ∃ (y : F64) (qx qy : ℚ),
        ((es.run n g i).1).best_individual = some y ∧
        es.selector.objective x0 = F64.val qx ∧
        es.selector.objective y = F64.val qy ∧ qx ≤ qy)
  ∧ ((es.step g i).1).population =
      (if F64.lt (es.selector.objective x0)
          (es.selector.objective ((es.mutator.mutate g x0 i).1)) = true
       then [(es.mutator.mutate g x0 i).1] else [x0]) := by
  obtain ⟨pop, m, sel⟩ := es
  replace hpop : pop = [x0] := hpop
  replace hsz : sel.selection_size = 1 := hsz
  replace hf : ∀ y : F64, (sel.objective y).isNan = false := hf
  subst hpop
  constructor
  · intro n
    obtain ⟨y, qx, qy, hy, h1, h2, h3⟩ := run_singleton_mono m sel g hsz hf n x0 i
    refine ⟨y, qx, qy, ?_, h1, h2, h3⟩
    show (((EvolutionStrategy.mk [x0] m sel).run n g i).1).population.getLast? = some y
    rw [hy]
    rfl
  · have hstep := step_singleton (EvolutionStrategy.mk [x0] m sel) x0 g i rfl hsz
    obtain ⟨qx, hqx⟩ := (F64.isNan_eq_false_iff _).mp (hf x0)
    obtain ⟨qm, hqm⟩ := (F64.isNan_eq_false_iff _).mp (hf ((m.mutate g x0 i).1))
    have hqm' : sel.objective (((EvolutionStrategy.mk [x0] m sel).mutator.mutate g x0 i).1)
        = F64.val qm := hqm
    rw [hstep, keeps_val sel x0 _ qx qm hqx hqm']
    show _ = (if F64.lt (sel.objective x0) (sel.objective ((m.mutate g x0 i).1)) = true
       then [(m.mutate g x0 i).1] else [x0])
    rw [hqx, hqm, F64.lt_val]
    by_cases h : qx < qm
    · rw [if_neg (by simpa using not_le.mpr h), if_pos (by simpa using h)]
    · rw [if_pos (by simpa using not_lt.mp h), if_neg (by simpa using h)]

/-- Witness for C5, with the constant objective (every score `0`, never NaN):
after three generations the best individual still scores at least the
initial score, and the tie at the first step keeps the parent. -/
theorem one_plus_one_monotone_witness :
    (∀ n : ℕ, ∃ (y : F64) (qx qy : ℚ),
        ((esW5.run n gW 0).1).best_individual = some y ∧
        esW5.selector.objective (F64.val 0) = F64.val qx ∧
        esW5.selector.objective y = F64.val qy ∧ qx ≤ qy)
  ∧ ((esW5.step gW 0).1).population =
      (if F64.lt (esW5.selector.objective (F64.val 0))
          (esW5.selector.objective ((esW5.mutator.mutate gW (F64.val 0) 0).1)) = true
       then [(esW5.mutator.mutate gW (F64.val 0) 0).1] else [F64.val 0]) :=
  one_plus_one_monotone esW5 (F64.val 0) gW 0 rfl rfl (fun _ => rfl)

/-- Claim C6: for a valid mutator configuration (`mutation_size = σ ≥ 0`,
`mutation_rate = ρ` an actual value) and trigger/perturbation draws in
`[0, 1)`, `mutate` leaves the individual unchanged when the trigger draw is
`≥ ρ`, and otherwise replaces `x` by `x + u` with `u ∈ [-σ, σ]`; it never
fails, and it returns nothing but the new individual and advanced cursor. -/
theorem mutate_contract (m : SimpleMutator) (g : ℕ → ℚ) (i : ℕ) (x : F64) (ρ σ : ℚ)
    (hrate : m.mutation_rate = F64.val ρ) (hsize : m.mutation_size = F64.val σ)
    (hσ : 0 ≤ σ) (hg0 : 0 ≤ g (i + 1)) (hg1 : g (i + 1) < 1) :
    (ρ ≤ g i → m.mutate g x i = (x, i + 1))
  ∧ (g i < ρ → ∃ u : ℚ, -σ ≤ u ∧ u ≤ σ ∧
      m.mutate g x i = (x + F64.val u, i + 2)) := by
  constructor
  · intro h
    rw [SimpleMutator.mutate, hrate]
    rw [if_neg (by simp [F64.lt_val]; exact h)]
  · intro h
    rw [SimpleMutator.mutate, hrate, hsize]
    rw [if_pos (by simp [F64.lt_val]; exact h)]
    refine ⟨(g (i + 1) * 2 - 1) * σ, ?_, ?_, ?_⟩
    · nlinarith [mul_nonneg (by linarith : (0 : ℚ) ≤ g (i + 1) * 2) hσ]
    · nlinarith [mul_nonneg (by linarith : (0 : ℚ) ≤ 2 - g (i + 1) * 2) hσ]
    · have harith : (F64.val (g (i + 1)) * F64.val 2 - F64.val 1) * F64.val σ
          = F64.val ((g (i + 1) * 2 - 1) * σ) := rfl
      rw [harith]

/-- Witness for C6: with `mutation_rate = 1/2`, `mutation_size = 1` and every
draw equal to `1/4`, the trigger fires and the individual moves by some
`u ∈ [-1, 1]`. -/
theorem mutate_contract_witness :
    ((1 / 2 : ℚ) ≤ gW 0 → mutW.mutate gW (F64.val 0) 0 = (F64.val 0, 0 + 1))
  ∧ (gW 0 < (1 / 2 : ℚ) → ∃ u : ℚ, -1 ≤ u ∧ u ≤ 1 ∧
      mutW.mutate gW (F64.val 0) 0 = (F64.val 0 + F64.val u, 0 + 2)) :=
  mutate_contract mutW gW 0 (F64.val 0) (1 / 2) 1 rfl rfl (by norm_num)
    (by norm_num [gW]) (by norm_num [gW])

/-- Claim C7: the sort inside `select` is stable and total-order-safe: two
candidates with equal (non-NaN) scores keep their relative input order; any
comparison whose operand scores include a NaN resolves to `Equal` instead of
failing; and for every input — NaN scores included — the sort completes,
producing a permutation of the input, and `select` returns its
`min(selection_size, length)` prefix.  (When NaN scores are present the
source's sort contract leaves the ordering unspecified, so the
order-retention part is stated for candidate lists whose scores are all
non-NaN, matching the spec's "NaN-scored candidates sort arbitrarily".) -/
theorem select_sort_stable_nan_safe (sel : SimpleSelector) (cands : List F64)
    (a b : F64)
    (hnan : ∀ x ∈ cands, (sel.objective x).isNan = false)
    (hab : List.Sublist [a, b] cands)
    (heq : sel.cmp a b = Ordering.eq) :
    List.Sublist [a, b] (cands.mergeSort sel.keeps)
  ∧ (∀ u v : F64,
      (sel.objective u).isNan = true ∨ (sel.objective v).isNan = true →
        sel.cmp u v = Ordering.eq)
  ∧ (∀ l : List F64,
      (sel.select l).length = min sel.selection_size l.length
      ∧ List.Perm (l.mergeSort sel.keeps) l) := by
  refine ⟨?_, cmp_eq_of_nan sel,
    fun l => ⟨select_length sel l, List.mergeSort_perm l sel.keeps⟩⟩
  refine pair_sublist_mergeSort_keeps sel cands a b hnan hab ?_
  show (sel.cmp a b != Ordering.gt) = true
  rw [heq]
  rfl

/-- Witness for C7: under the constant objective, the tied candidates `1`
and `2` keep their relative order through the sort. -/
theorem select_sort_stable_nan_safe_witness :
    List.Sublist [F64.val 1, F64.val 2]
      ([F64.val 1, F64.val 2].mergeSort selConst2.keeps)
  ∧ (∀ u v : F64,
      (selConst2.objective u).isNan = true ∨ (selConst2.objective v).isNan = true →
        selConst2.cmp u v = Ordering.eq)
  ∧ (∀ l : List F64,
      (selConst2.select l).length = min 2 l.length
      ∧ List.Perm (l.mergeSort selConst2.keeps) l) :=
  select_sort_stable_nan_safe selConst2 [F64.val 1, F64.val 2]
    (F64.val 1) (F64.val 2) (by decide) (List.Sublist.refl _) (by decide)

/-- Claim C8: `select` is pure and deterministic: equal inputs give equal
outputs, and (for non-NaN scores, where the comparator is a total preorder)
`select` applied to its own output returns that output unchanged.  In the
embedding `select` is a function of the selector and the candidate list
alone, mirroring that the Rust method takes `&self` and `&Vec<f64>` and
clones the input rather than mutating it. -/
theorem select_pure_idempotent (sel : SimpleSelector) (cands cands2 : List F64)
    (hnan : ∀ x ∈ cands, (sel.objective x).isNan = false)
    (heq : cands = cands2) :
    sel.select cands = sel.select cands2
  ∧ sel.select (sel.select cands) = sel.select cands := by
  subst heq
  refine ⟨rfl, ?_⟩
  have hsorted := sorted_mergeSort_keeps sel cands hnan
  have hps : (sel.select cands).Pairwise (fun a b => sel.keeps a b = true) :=
    hsorted.take
  have hfix : (sel.select cands).mergeSort sel.keeps = sel.select cands :=
    List.mergeSort_of_sorted hps
  show ((sel.select cands).mergeSort sel.keeps).take sel.selection_size
      = sel.select cands
  rw [hfix]
  apply List.take_of_length_le
  rw [select_length]
  exact min_le_left _ _

/-- Witness for C8: selecting from `[1, 5, 3]` twice changes nothing. -/
theorem select_pure_idempotent_witness :
    selW.select [F64.val 1, F64.val 5, F64.val 3]
      = selW.select [F64.val 1, F64.val 5, F64.val 3]
  ∧ selW.select (selW.select [F64.val 1, F64.val 5, F64.val 3])
      = selW.select [F64.val 1, F64.val 5, F64.val 3] :=
  select_pure_idempotent selW [F64.val 1, F64.val 5, F64.val 3]
    [F64.val 1, F64.val 5, F64.val 3] (by decide) rfl

/-- Claim C9: `best_individual` on an empty population does not return a
value — the `unwrap` of the empty list's last element is the panic case,
modelled by `none`, with no recoverable-error reporting — while on every
non-empty population it returns a value. -/
theorem best_individual_empty_panics (es : EvolutionStrategy) :
    (es.population = [] → es.best_individual = none)
  ∧ (es.population ≠ [] → ∃ v, es.best_individual = some v) := by
  constructor
  · intro h
    show es.population.getLast? = none
    rw [h]
    rfl
  · intro h
    exact Option.isSome_iff_exists.mp (List.getLast?_isSome.mpr h)

/-- Witness for C9: the empty-population strategy panics (`none`); the
singleton-population strategy succeeds. -/
theorem best_individual_empty_panics_witness :
    esEmpty.best_individual = none ∧ ∃ v, esW.best_individual = some v :=
  ⟨(best_individual_empty_panics esEmpty).1 rfl,
   (best_individual_empty_panics esW).2 (by simp [esW])⟩

/-- Claim C10: `run 0` returns the strategy (and random cursor) unchanged,
and `run` of any generation count modifies only the population field: the
mutator and selector configurations are identical before and after. -/
theorem run_frame (es : EvolutionStrategy) (g : ℕ → ℚ) (i : ℕ) :
    es.run 0 g i = (es, i)
  ∧ (∀ n : ℕ, ((es.run n g i).1).mutator = es.mutator
      ∧ ((es.run n g i).1).selector = es.selector) :=
  ⟨rfl, fun n => ⟨run_mutator g n es i, run_selector g n es i⟩⟩
